import Mathlib

/-!
Shallow embedding of the caching framework in `core/cache.py` of the
repository: the abstract `_Cache` interface, the in-memory `_SimpleCache`
backend (value map, expiration map, lazy expiry, size-bounded culling),
and the `get_cache` descriptor parser and registry.

Modelling conventions:
  * Python dicts are association lists in insertion ("storage") order;
    `dictGet`, `dictSet`, `dictDel` mirror `d.get`, `d[k] = v`, `del d[k]`
    (deletion is total here, mirroring a dict that cannot hold duplicate
    keys; the key-set invariant proved below shows the unguarded paired
    deletions of `get` never hit a missing key on reachable states).
  * `time.time()` values are abstract integer timestamps supplied as a
    `now` argument at each call that reads the clock.
  * Cached values have an opaque type `V` with no `None` inhabitant;
    the `default=None` parameter of `get` is modelled as an `Option V`.
  * Python `%` on integers is floor-style modulus, i.e. `Int.fmod`.
-/

/-- Characters stripped by Python's `int()` as surrounding whitespace. -/
def pyIsSpace (c : Char) : Bool :=
  c == ' ' || c == '\t' || c == '\n' || c == '\r' || c == '\x0b' || c == '\x0c'

/-- Decimal value of a digit run. -/
def digitsVal (cs : List Char) : Nat :=
  cs.foldl (fun n c => n * 10 + (c.toNat - 48)) 0

/-- Model of Python's `int(s)` on a string: optional surrounding whitespace,
one optional sign, then a nonempty run of decimal digits; `none` models a
raised `ValueError` on any other shape. -/
def pyInt (s : String) : Option Int :=
  let cs := ((s.data.dropWhile pyIsSpace).reverse.dropWhile pyIsSpace).reverse
  match cs with
  | [] => none
  | c :: rest =>
    let signed : Bool × List Char :=
      if c == '-' then (true, rest)
      else if c == '+' then (false, rest)
      else (false, c :: rest)
    if signed.2 ≠ [] ∧ signed.2.all Char.isDigit then
      some (if signed.1 then -(digitsVal signed.2 : Int) else (digitsVal signed.2 : Int))
    else none

/-- Python `d.get(k)`: the value stored under `k`, if any. -/
def dictGet {α : Type} (d : List (String × α)) (k : String) : Option α :=
  (d.find? (fun p => p.1 == k)).map Prod.snd

/-- Python `d[k] = v`: overwrite in place when the key is present, else
append at the end of the storage order. -/
def dictSet {α : Type} (d : List (String × α)) (k : String) (v : α) :
    List (String × α) :=
  if d.any (fun p => p.1 == k) then
    d.map (fun p => if p.1 == k then (k, v) else p)
  else d ++ [(k, v)]

/-- Python `del d[k]` on a dict (keys unique, so removing every pair with
key `k` coincides with removing the one entry). -/
def dictDel {α : Type} (d : List (String × α)) (k : String) : List (String × α) :=
  d.filter (fun p => p.1 != k)

/-- State of `_SimpleCache`: `_cache`, `_expire_info`, and the three
configured integers (`_Cache.default_timeout`, `_max_entries`,
`_cull_frequency`). -/
structure SimpleCache (V : Type) where
  cache : List (String × V)
  expireInfo : List (String × Int)
  defaultTimeout : Int
  maxEntries : Int
  cullFrequency : Int
deriving DecidableEq

/-- Lookup `params.get(name, dflt)` followed by `int(...)` with the silent
fallback to `dflt` on `ValueError`/`TypeError`, as in `_Cache.__init__`
and `_SimpleCache.__init__`. -/
def pyIntParam (params : List (String × String)) (name : String) (dflt : Int) : Int :=
  match dictGet params name with
  | none => dflt
  | some s =>
    match pyInt s with
    | some n => n
    | none => dflt

/-- Constructor `_SimpleCache.__init__(host, params)` (including `_Cache.__init__`);
`host` is accepted and ignored, exactly as in the source. -/
def SimpleCache.init (V : Type) (host : String) (params : List (String × String)) :
    SimpleCache V :=
  { cache := []
    expireInfo := []
    defaultTimeout := pyIntParam params "timeout" 300
    maxEntries := pyIntParam params "max_entries" 300
    cullFrequency := pyIntParam params "cull_frequency" 3 }

/-- Method `_SimpleCache.get(key, default)`. `exp = self._expire_info.get(key, now)`
can never be `None` here because the expiration map stores timestamps, so
the Python guard `exp is not None` is always true. Returns the value (or
default) together with the possibly mutated state. -/
def SimpleCache.get {V : Type} (s : SimpleCache V) (now : Int) (key : String)
    (default : Option V) : Option V × SimpleCache V :=
  let exp := (dictGet s.expireInfo key).getD now
  if exp < now then
    (default,
     { s with cache := dictDel s.cache key, expireInfo := dictDel s.expireInfo key })
  else
    (match dictGet s.cache key with
     | some v => some v
     | none => default, s)

/-- Method `_SimpleCache.delete(key)`: remove from both maps, failing silently. -/
def SimpleCache.delete {V : Type} (s : SimpleCache V) (key : String) : SimpleCache V :=
  { s with cache := dictDel s.cache key, expireInfo := dictDel s.expireInfo key }

/-- The predicate of the cull comprehension: `i % self._cull_frequency == 0`
with Python's floor modulus. -/
def cullPred (f : Int) (i : Nat) : Bool :=
  Int.fmod (i : Int) f == 0

/-- The `doomed` list of `_SimpleCache._cull`: keys of `_cache` whose
ordinal position in storage order is 0 modulo `_cull_frequency`. -/
def cullDoomed {V : Type} (s : SimpleCache V) : List String :=
  (((s.cache.map Prod.fst).enum).filter (fun p => cullPred s.cullFrequency p.1)).map Prod.snd

/-- Method `_SimpleCache._cull()`: full flush when `_cull_frequency == 0`, else
delete the doomed keys one by one via `self.delete`. -/
def SimpleCache.cull {V : Type} (s : SimpleCache V) : SimpleCache V :=
  if s.cullFrequency = 0 then
    { s with cache := [], expireInfo := [] }
  else
    (cullDoomed s).foldl (fun t k => t.delete k) s

/-- Method `_SimpleCache.set(key, value, timeout=None)`: cull when at or above
capacity, then write value and absolute expiration `now + timeout`. -/
def SimpleCache.set {V : Type} (s : SimpleCache V) (now : Int) (key : String)
    (value : V) (timeout : Option Int) : SimpleCache V :=
  let s1 := if (s.cache.length : Int) ≥ s.maxEntries then s.cull else s
  let t := timeout.getD s1.defaultTimeout
  { s1 with
    cache := dictSet s1.cache key value
    expireInfo := dictSet s1.expireInfo key (now + t) }

/-- Method `_SimpleCache.has_key(key)`: membership in `_cache` only. -/
def SimpleCache.hasKey {V : Type} (s : SimpleCache V) (key : String) : Bool :=
  (dictGet s.cache key).isSome

/-- Method `_Cache.get_many(keys)`: the naive loop building a dict from the
per-key `get` results, skipping `None`; state threads through the
mutating `get` calls. -/
def SimpleCache.getMany {V : Type} (s : SimpleCache V) (now : Int)
    (keys : List String) : List (String × V) × SimpleCache V :=
  keys.foldl
    (fun acc k =>
      match acc.2.get now k none with
      | (some v, t) => (dictSet acc.1 k v, t)
      | (none, t) => (acc.1, t))
    ([], s)

/-- Model of `str.split(sep, 1)` for a single character, or `none` when the
separator is absent (so `find(sep) == -1`). -/
def splitOnceChar : List Char → Char → Option (List Char × List Char)
  | [], _ => none
  | x :: rest, c =>
    if x == c then some ([], rest)
    else
      match splitOnceChar rest c with
      | none => none
      | some (a, b) => some (x :: a, b)

/-- Model of `str.split(sep)` for a single character (empty pieces kept). -/
def splitChar : List Char → Char → List (List Char)
  | [], _ => [[]]
  | x :: rest, c =>
    if x == c then [] :: splitChar rest c
    else
      match splitChar rest c with
      | [] => [[x]]
      | a :: tl => (x :: a) :: tl

/-- Value of one hexadecimal digit. -/
def hexVal (c : Char) : Option Nat :=
  if '0' ≤ c ∧ c ≤ '9' then some (c.toNat - 48)
  else if 'a' ≤ c ∧ c ≤ 'f' then some (c.toNat - 87)
  else if 'A' ≤ c ∧ c ≤ 'F' then some (c.toNat - 55)
  else none

/-- Model of `urllib.unquote`, rendered on characters: a `%` followed by two hex
digits becomes the encoded byte, any other `%` stays literal. -/
def unquote : List Char → List Char
  | '%' :: a :: b :: rest =>
    (match hexVal a, hexVal b with
     | some hi, some lo => Char.ofNat (16 * hi + lo) :: unquote rest
     | _, _ => '%' :: unquote (a :: b :: rest))
  | c :: rest => c :: unquote rest
  | [] => []

/-- The `s.replace('+', ' ')` step of `parse_qsl`. -/
def plusToSpace (cs : List Char) : List Char :=
  cs.map (fun c => if c == '+' then ' ' else c)

/-- Model of `cgi.parse_qsl(qs)` with the default flags: split fields on `&` and
`;`, keep only fields containing `=` with a nonempty value, then apply
`+`-to-space and percent-decoding to name and value. -/
def pyParseQsl (qs : List Char) : List (String × String) :=
  let pairs := ((splitChar qs '&').map (fun s1 => splitChar s1 ';')).flatten
  pairs.filterMap (fun nv =>
    match splitOnceChar nv '=' with
    | none => none
    | some (name, value) =>
      if value = [] then none
      else some (String.mk (unquote (plusToSpace name)),
                 String.mk (unquote (plusToSpace value))))

/-- Python `dict(pairs)`: fold the pairs into a dict, last occurrence of a
key winning. -/
def pyDict (l : List (String × String)) : List (String × String) :=
  l.foldl (fun d p => dictSet d p.1 p.2) []

/-- Registry keys `_BACKENDS.keys()`: the registered scheme names. -/
def backendKeys : List String := ["memcached", "simple"]

/-- The descriptor-parsing part of `get_cache(backend_uri)`: everything up
to (but excluding) the constructor call, returning
`(scheme, host, params)` on success and the `InvalidCacheBackendError`
message on failure.  Note the source computes `host = rest[:qpos]` when a
query string is present. -/
def parseBackendUri (backend_uri : String) :
    Except String (String × String × List (String × String)) :=
  match splitOnceChar backend_uri.data ':' with
  | none => .error "Backend URI must start with scheme://"
  | some (schemeCs, rest) =>
    if rest.take 2 ≠ ['/', '/'] then .error "Backend URI must start with scheme://"
    else if ¬ backendKeys.contains (String.mk schemeCs) then
      .error "is not a valid cache backend"
    else
      let qpos := List.findIdx? (fun c => c == '?') rest
      let params :=
        match qpos with
        | some q => pyDict (pyParseQsl (rest.drop (q + 1)))
        | none => []
      let host :=
        match qpos with
        | some q => rest.take q
        | none => rest.drop 2
      let host2 := if host.getLast? == some '/' then host.dropLast else host
      .ok (String.mk schemeCs, String.mk host2, params)

/-- A constructed backend instance: `_MemcachedCache` keeps the server
address and the `_Cache` default timeout, `_SimpleCache` its full state. -/
inductive Backend (V : Type) where
  | memcached (server : String) (default_timeout : Int)
  | simple (state : SimpleCache V)
deriving DecidableEq

/-- Factory `get_cache(backend_uri)`: parse the descriptor, then
`_BACKENDS[scheme](host, params)` (the parser has already checked that
`scheme` is one of the two registered names). -/
def get_cache (V : Type) (backend_uri : String) : Except String (Backend V) :=
  match parseBackendUri backend_uri with
  | .error e => .error e
  | .ok (scheme, host, params) =>
    if scheme == "memcached" then
      .ok (Backend.memcached host (pyIntParam params "timeout" 300))
    else
      .ok (Backend.simple (SimpleCache.init V host params))

/-- Modelled from the spec sentences behind C7 (not from the source): the
descriptor is rejected exactly when it has no `:`, the remainder does not
begin with `//`, or the scheme is not a registered backend name. -/
def specRaises (backend_uri : String) : Bool :=
  match splitOnceChar backend_uri.data ':' with
  | none => true
  | some (schemeCs, rest) =>
    !(rest.take 2 == ['/', '/']) || !(backendKeys.contains (String.mk schemeCs))

/-- One public operation on the in-memory backend. -/
inductive CacheOp (V : Type) where
  | get (now : Int) (key : String)
  | set (now : Int) (key : String) (value : V) (timeout : Option Int)
  | del (key : String)
  | cull

/-- Apply one operation to a `_SimpleCache` state. -/
def applyOp {V : Type} (s : SimpleCache V) : CacheOp V → SimpleCache V
  | .get now k => (s.get now k none).2
  | .set now k v t => s.set now k v t
  | .del k => s.delete k
  | .cull => s.cull

/-- Run a sequence of operations. -/
def runOps {V : Type} (s : SimpleCache V) (ops : List (CacheOp V)) : SimpleCache V :=
  ops.foldl applyOp s

/-- The two maps of `_SimpleCache` hold exactly the same keys. -/
def sameKeys {V : Type} (s : SimpleCache V) : Prop :=
  ∀ k : String, (dictGet s.cache k).isSome ↔ (dictGet s.expireInfo k).isSome

/-- A state with one entry for key `k`, value `v`, absolute expiration 10,
reachable from a fresh backend by a single `set(k, v, timeout=10)` at time 0. -/
def exampleEntry : SimpleCache String :=
  SimpleCache.set (SimpleCache.init String "" []) 0 "k" "v" (some 10)

/-- A backend of capacity 5 configured for full-flush culling
(`cull_frequency = 0`), holding exactly 5 live entries. -/
def fullFlushExample : SimpleCache String :=
  { cache := [("k1", "v1"), ("k2", "v2"), ("k3", "v3"), ("k4", "v4"), ("k5", "v5")]
    expireInfo := [("k1", 100), ("k2", 100), ("k3", 100), ("k4", 100), ("k5", 100)]
    defaultTimeout := 300
    maxEntries := 5
    cullFrequency := 0 }

/-! ### Lemmas on the dict model -/

theorem find?_of_any_false {α : Type} {l : List α} {p : α → Bool}
    (h : l.any p = false) : l.find? p = none := by
  rw [List.find?_eq_none]
  intro x hx hpx
  have hT := List.any_eq_true.mpr ⟨x, hx, hpx⟩
  rw [h] at hT
  exact Bool.false_ne_true hT

theorem find?_filter_of_imp {α : Type} {p q : α → Bool} (l : List α)
    (h : ∀ x, p x = true → q x = true) : (l.filter q).find? p = l.find? p := by
  induction l with
  | nil => rfl
  | cons x l ih =>
    by_cases hq : q x = true
    · rw [List.filter_cons_of_pos hq]
      by_cases hp : p x = true
      · simp [List.find?_cons, hp]
      · simp only [List.find?_cons, Bool.not_eq_true] at hp ⊢
        simp [hp, ih]
    · have hp : ¬ p x = true := fun hpx => hq (h x hpx)
      rw [List.filter_cons_of_neg (by simpa using hq), ih]
      simp only [List.find?_cons, Bool.not_eq_true] at hp ⊢
      simp [hp]

theorem dictGet_dictDel_self {α : Type} (d : List (String × α)) (k : String) :
    dictGet (dictDel d k) k = none := by
  unfold dictGet dictDel
  rw [Option.map_eq_none', List.find?_eq_none]
  intro p hp
  have := (List.mem_filter.mp hp).2
  simpa [bne] using this

theorem dictGet_dictDel_ne {α : Type} (d : List (String × α)) {k j : String}
    (h : j ≠ k) : dictGet (dictDel d k) j = dictGet d j := by
  unfold dictGet dictDel
  rw [find?_filter_of_imp]
  intro p hp
  have hpj : p.1 = j := by simpa using hp
  simp [bne, hpj, h]

theorem find?_pred_congr {α : Type} {p q : α → Bool} (l : List α)
    (h : ∀ a, p a = q a) : l.find? p = l.find? q := by
  induction l with
  | nil => rfl
  | cons x l ih => simp [List.find?_cons, h x, ih]

theorem dictGet_dictSet_self {α : Type} (d : List (String × α)) (k : String) (v : α) :
    dictGet (dictSet d k v) k = some v := by
  unfold dictGet dictSet
  by_cases h : d.any (fun p => p.1 == k) = true
  · rw [if_pos h]
    obtain ⟨p, hp, hpk⟩ := List.any_eq_true.mp h
    rw [List.find?_map]
    have hcong : List.find? ((fun p => p.1 == k) ∘ fun p => if p.1 == k then (k, v) else p) d
        = List.find? (fun p => p.1 == k) d := by
      apply find?_pred_congr
      intro q
      by_cases hq : (q.1 == k) = true
      · have hq1 : q.1 = k := by simpa using hq
        simp [hq, hq1]
      · have hq1 : ¬ q.1 = k := by simpa using hq
        simp [hq, hq1]
    rw [hcong]
    have hsome : (List.find? (fun p => p.1 == k) d).isSome := by
      rw [List.find?_isSome]; exact ⟨p, hp, hpk⟩
    obtain ⟨q, hq⟩ := Option.isSome_iff_exists.mp hsome
    have hqk : q.1 = k := by simpa using List.find?_some hq
    rw [hq]
    simp [hqk]
  · rw [if_neg h, List.find?_append, find?_of_any_false (Bool.eq_false_iff.mpr h)]
    simp

theorem dictGet_dictSet_ne {α : Type} (d : List (String × α)) (k : String) (v : α)
    {j : String} (h : j ≠ k) : dictGet (dictSet d k v) j = dictGet d j := by
  unfold dictGet dictSet
  by_cases hany : d.any (fun p => p.1 == k) = true
  · rw [if_pos hany, List.find?_map]
    have hcong : List.find? ((fun p => p.1 == j) ∘ fun p => if p.1 == k then (k, v) else p) d
        = List.find? (fun p => p.1 == j) d := by
      apply find?_pred_congr
      intro q
      by_cases hq : (q.1 == k) = true
      · have hq1 : q.1 = k := by simpa using hq
        have hkj : ¬ k = j := fun hh => h hh.symm
        simp [hq, hq1, hkj]
      · have hq1 : ¬ q.1 = k := by simpa using hq
        simp [hq, hq1]
    rw [hcong]
    cases hfind : List.find? (fun p => p.1 == j) d with
    | none => rfl
    | some q =>
      have hqj : q.1 = j := by simpa using List.find?_some hfind
      have hqk : (q.1 = k) = False := by simp [hqj, h]
      simp [hqk]
  · rw [if_neg hany, List.find?_append]
    have hkv : List.find? (fun p => p.1 == j) [(k, v)] = none := by
      have hkj : ¬ k = j := fun hh => h hh.symm
      simp [List.find?_cons, hkj]
    rw [hkv]
    cases List.find? (fun p => p.1 == j) d <;> rfl

theorem length_dictSet_le {α : Type} (d : List (String × α)) (k : String) (v : α) :
    (dictSet d k v).length ≤ d.length + 1 := by
  unfold dictSet
  by_cases h : d.any (fun p => p.1 == k) = true
  · rw [if_pos h, List.length_map]; omega
  · rw [if_neg h, List.length_append]; simp

/-! ### Lemmas on the in-memory backend -/

theorem SimpleCache.get_eq {V : Type} (s : SimpleCache V) (now : Int) (key : String)
    (dflt : Option V) :
    s.get now key dflt =
      if (dictGet s.expireInfo key).getD now < now then
        (dflt, { s with cache := dictDel s.cache key, expireInfo := dictDel s.expireInfo key })
      else
        (match dictGet s.cache key with
         | some v => some v
         | none => dflt, s) := rfl

theorem SimpleCache.get_fst {V : Type} (s : SimpleCache V) (now : Int) (key : String)
    (dflt : Option V) :
    (s.get now key dflt).1 =
      if (dictGet s.expireInfo key).getD now < now then dflt
      else
        match dictGet s.cache key with
        | some v => some v
        | none => dflt := by
  rw [SimpleCache.get_eq]
  by_cases h : (dictGet s.expireInfo key).getD now < now <;> simp [h]

theorem get_fst_stable {V : Type} (s : SimpleCache V) (now : Int) (k j : String) :
    (((s.get now k none).2).get now j none).1 = (s.get now j none).1 := by
  by_cases hexp : (dictGet s.expireInfo k).getD now < now
  · have hc : (s.get now k none).2.cache = dictDel s.cache k := by
      rw [SimpleCache.get_eq, if_pos hexp]
    have he : (s.get now k none).2.expireInfo = dictDel s.expireInfo k := by
      rw [SimpleCache.get_eq, if_pos hexp]
    rw [SimpleCache.get_fst, SimpleCache.get_fst, hc, he]
    by_cases hjk : j = k
    · subst hjk
      rw [dictGet_dictDel_self, dictGet_dictDel_self]
      simp [hexp]
    · rw [dictGet_dictDel_ne _ hjk, dictGet_dictDel_ne _ hjk]
  · have h2 : (s.get now k none).2 = s := by
      rw [SimpleCache.get_eq, if_neg hexp]
    rw [h2]

theorem foldl_delete_eq {V : Type} (ks : List String) (s : SimpleCache V) :
    ks.foldl (fun t k => t.delete k) s =
      { s with
        cache := s.cache.filter (fun p => ks.all (fun k => p.1 != k))
        expireInfo := s.expireInfo.filter (fun p => ks.all (fun k => p.1 != k)) } := by
  induction ks generalizing s with
  | nil => simp
  | cons a ks ih =>
    show List.foldl _ (s.delete a) ks = _
    rw [ih]
    simp only [SimpleCache.delete, dictDel, List.filter_filter, SimpleCache.mk.injEq,
      List.all_cons, and_true, true_and]
    constructor <;>
      · apply List.filter_congr
        intro p _
        rw [Bool.and_comm]

theorem SimpleCache.cull_defaultTimeout {V : Type} (s : SimpleCache V) :
    s.cull.defaultTimeout = s.defaultTimeout := by
  unfold SimpleCache.cull
  by_cases h : s.cullFrequency = 0
  · rw [if_pos h]
  · rw [if_neg h, foldl_delete_eq]

/-- Claim C8: construction of the in-memory backend never fails on bad
parameter values.  For each of `timeout`, `max_entries`, `cull_frequency`:
a given value that is not coercible to an integer is silently replaced by
the default (300, 300, 3 respectively), and a coercible value is kept. -/
theorem c8_param_coercion (V : Type) (host : String) (params : List (String × String)) :
    ((∀ t, dictGet params "timeout" = some t → pyInt t = none →
        (SimpleCache.init V host params).defaultTimeout = 300)
      ∧ (∀ t n, dictGet params "timeout" = some t → pyInt t = some n →
        (SimpleCache.init V host params).defaultTimeout = n))
    ∧ ((∀ t, dictGet params "max_entries" = some t → pyInt t = none →
        (SimpleCache.init V host params).maxEntries = 300)
      ∧ (∀ t n, dictGet params "max_entries" = some t → pyInt t = some n →
        (SimpleCache.init V host params).maxEntries = n))
    ∧ ((∀ t, dictGet params "cull_frequency" = some t → pyInt t = none →
        (SimpleCache.init V host params).cullFrequency = 3)
      ∧ (∀ t n, dictGet params "cull_frequency" = some t → pyInt t = some n →
        (SimpleCache.init V host params).cullFrequency = n)) := by
  refine ⟨⟨?_, ?_⟩, ⟨?_, ?_⟩, ⟨?_, ?_⟩⟩
  · intro t h1 h2; simp [SimpleCache.init, pyIntParam, h1, h2]
  · intro t n h1 h2; simp [SimpleCache.init, pyIntParam, h1, h2]
  · intro t h1 h2; simp [SimpleCache.init, pyIntParam, h1, h2]
  · intro t n h1 h2; simp [SimpleCache.init, pyIntParam, h1, h2]
  · intro t h1 h2; simp [SimpleCache.init, pyIntParam, h1, h2]
  · intro t n h1 h2; simp [SimpleCache.init, pyIntParam, h1, h2]

/-- Witness for C8 at a concrete parameter mapping mixing coercible and
non-coercible values. -/
theorem c8_param_coercion_witness :
    (SimpleCache.init String ""
      [("timeout", "abc"), ("max_entries", "-2"), ("cull_frequency", "2x")]).defaultTimeout = 300
    ∧ (SimpleCache.init String ""
      [("timeout", "abc"), ("max_entries", "-2"), ("cull_frequency", "2x")]).maxEntries = -2
    ∧ (SimpleCache.init String ""
      [("timeout", "abc"), ("max_entries", "-2"), ("cull_frequency", "2x")]).cullFrequency = 3 :=
  ⟨(c8_param_coercion String ""
      [("timeout", "abc"), ("max_entries", "-2"), ("cull_frequency", "2x")]).1.1 "abc" rfl rfl,
   (c8_param_coercion String ""
      [("timeout", "abc"), ("max_entries", "-2"), ("cull_frequency", "2x")]).2.1.2 "-2" (-2) rfl rfl,
   (c8_param_coercion String ""
      [("timeout", "abc"), ("max_entries", "-2"), ("cull_frequency", "2x")]).2.2.1 "2x" rfl rfl⟩

/-- Claim C1, evidence of a code bug: parsing "simple:///?max_entries=5"
succeeds with scheme "simple" and params mapping max_entries to "5" as the
spec claims, but the location handed to the backend constructor is "//",
not "": the source computes `host = rest[:qpos]`, which keeps the leading
`//` (contradicting the module docstring, whose examples treat the text
after `scheme://` as the location). -/
theorem c1_parse_simple_descriptor :
    parseBackendUri "simple:///?max_entries=5" =
      Except.ok ("simple", "//", [("max_entries", "5")])
    ∧ get_cache String "simple:///?max_entries=5" =
      Except.ok (Backend.simple
        { cache := [], expireInfo := [], defaultTimeout := 300,
          maxEntries := 5, cullFrequency := 3 }) :=
  ⟨rfl, rfl⟩

/-- Claim C2, evidence of a code bug: on a state holding an entry for "k"
that expired at time 10, read at time 20, `has_key` answers `true` while
`get` answers `none` — `_SimpleCache.has_key` checks only membership in
the value map, contradicting the documented contract (`get(key) is not
None`, i.e. in the cache AND not expired). -/
theorem c2_has_key_ignores_expiry :
    exampleEntry.hasKey "k" = true ∧ (exampleEntry.get 20 "k" none).1 = none :=
  ⟨rfl, rfl⟩

/-- Counterexample to claim C3 as stated: an entry read at exactly its
expiration instant (now = exp = 10) is still visible — `get` returns the
stored value and leaves the state untouched, while the claim requires
visibility only for exp strictly greater than now. -/
theorem c3_counterexample_expiry_boundary :
    (exampleEntry.get 10 "k" none).1 = some "v"
    ∧ ¬ (exampleEntry.get 10 "k" none).1 = none
    ∧ (exampleEntry.get 10 "k" none).2 = exampleEntry := by
  refine ⟨rfl, ?_, rfl⟩
  have hv : (exampleEntry.get 10 "k" none).1 = some "v" := rfl
  rw [hv]
  simp

/-- Claim C3 (amended): for a stored entry, `get` returns its value iff
the expiration timestamp is greater than OR EQUAL to the read time (the
source tests `exp < now`, so an entry read at exactly its expiration
instant is still visible); when the timestamp is strictly below the read
time, `get` returns the given default and removes the entry from both the
value map and the expiration map. -/
theorem c3_get_visibility {V : Type} (s : SimpleCache V) (now : Int) (key : String)
    (dflt : Option V) (v : V) (e : Int)
    (hv : dictGet s.cache key = some v) (he : dictGet s.expireInfo key = some e) :
    (now ≤ e → s.get now key dflt = (some v, s))
    ∧ (e < now → s.get now key dflt =
        (dflt, { s with cache := dictDel s.cache key,
                        expireInfo := dictDel s.expireInfo key })) := by
  constructor
  · intro h
    rw [SimpleCache.get_eq, he]
    simp [not_lt.mpr h, hv]
  · intro h
    rw [SimpleCache.get_eq, he]
    simp [h]

/-- Witness for C3 at a concrete entry, read at exactly the expiration
instant (visible) — exercising the amended boundary. -/
theorem c3_get_visibility_witness :
    exampleEntry.get 10 "k" none = (some "v", exampleEntry) :=
  (c3_get_visibility exampleEntry 10 "k" none "v" 10 rfl rfl).1 (by decide)

/-- Counterexample to claim C9 as stated: with a configured default
timeout of -1 (reachable from the descriptor parameter timeout=-1, which
is coercible), `set` then `get` with no time elapsed returns `none`, not
the stored value. -/
theorem c9_counterexample_negative_timeout :
    (((SimpleCache.init String "" [("timeout", "-1")]).set 0 "k" "v" none).get 0 "k" none).1
      = none := rfl

/-- Claim C9 (amended): provided the configured default timeout is
nonnegative, `set(key, value)` with no explicit timeout followed
immediately by `get(key)` (same clock value, no operation in between)
returns `value`, in every state of the backend. -/
theorem c9_set_then_get {V : Type} (s : SimpleCache V) (now : Int) (key : String)
    (value : V) (h : 0 ≤ s.defaultTimeout) :
    ((s.set now key value none).get now key none).1 = some value := by
  have hdt : (if (s.cache.length : Int) ≥ s.maxEntries then s.cull else s).defaultTimeout
      = s.defaultTimeout := by
    by_cases hc : (s.cache.length : Int) ≥ s.maxEntries
    · rw [if_pos hc, SimpleCache.cull_defaultTimeout]
    · rw [if_neg hc]
  have hE : (s.set now key value none).expireInfo
      = dictSet (if (s.cache.length : Int) ≥ s.maxEntries then s.cull else s).expireInfo key
          (now + (if (s.cache.length : Int) ≥ s.maxEntries then s.cull else s).defaultTimeout) :=
    rfl
  have hC : (s.set now key value none).cache
      = dictSet (if (s.cache.length : Int) ≥ s.maxEntries then s.cull else s).cache key value :=
    rfl
  rw [SimpleCache.get_fst, hE, hC, dictGet_dictSet_self, dictGet_dictSet_self, hdt]
  have hlt : ¬ (now + s.defaultTimeout < now) := by omega
  simp [hlt]

/-- Witness for C9 on a freshly constructed backend (default timeout 300). -/
theorem c9_set_then_get_witness :
    0 ≤ (SimpleCache.init String "" []).defaultTimeout
    ∧ (((SimpleCache.init String "" []).set 0 "k" "v" none).get 0 "k" none).1 = some "v" :=
  ⟨by decide, c9_set_then_get (SimpleCache.init String "" []) 0 "k" "v" (by decide)⟩

/-! ### The paired-maps key invariant (C10) -/

theorem dictGet_filter_key {α : Type} (d : List (String × α)) (q : String → Bool)
    (j : String) :
    dictGet (d.filter (fun p => q p.1)) j = if q j then dictGet d j else none := by
  by_cases hq : q j = true
  · rw [if_pos hq]
    unfold dictGet
    rw [find?_filter_of_imp]
    intro x hx
    have hx1 : x.1 = j := by simpa using hx
    rw [hx1]; exact hq
  · rw [if_neg hq]
    unfold dictGet
    rw [Option.map_eq_none', List.find?_eq_none]
    intro p hp hpj
    have h1 : p.1 = j := by simpa using hpj
    have h2 : q p.1 = true := (List.mem_filter.mp hp).2
    rw [h1] at h2
    exact hq h2

theorem sameKeys_delete {V : Type} {s : SimpleCache V} (h : sameKeys s) (k : String) :
    sameKeys (s.delete k) := by
  intro j
  show (dictGet (dictDel s.cache k) j).isSome ↔ (dictGet (dictDel s.expireInfo k) j).isSome
  by_cases hjk : j = k
  · subst hjk
    rw [dictGet_dictDel_self, dictGet_dictDel_self]
    simp
  · rw [dictGet_dictDel_ne _ hjk, dictGet_dictDel_ne _ hjk]
    exact h j

theorem sameKeys_cull {V : Type} {s : SimpleCache V} (h : sameKeys s) :
    sameKeys s.cull := by
  unfold SimpleCache.cull
  by_cases hf : s.cullFrequency = 0
  · rw [if_pos hf]
    intro j
    show (dictGet [] j).isSome ↔ (dictGet ([] : List (String × Int)) j).isSome
    simp [dictGet]
  · rw [if_neg hf]
    have := foldl_delete_eq (cullDoomed s) s
    rw [this]
    intro j
    show (dictGet (s.cache.filter
        (fun p => (cullDoomed s).all (fun k => p.1 != k))) j).isSome
      ↔ (dictGet (s.expireInfo.filter
        (fun p => (cullDoomed s).all (fun k => p.1 != k))) j).isSome
    rw [dictGet_filter_key s.cache (fun x => (cullDoomed s).all (fun k => x != k)),
        dictGet_filter_key s.expireInfo (fun x => (cullDoomed s).all (fun k => x != k))]
    by_cases hq : (cullDoomed s).all (fun k => j != k) = true
    · rw [if_pos hq, if_pos hq]; exact h j
    · rw [if_neg hq, if_neg hq]; simp

theorem sameKeys_set {V : Type} {s : SimpleCache V} (h : sameKeys s) (now : Int)
    (key : String) (value : V) (timeout : Option Int) :
    sameKeys (s.set now key value timeout) := by
  have h1 : sameKeys (if (s.cache.length : Int) ≥ s.maxEntries then s.cull else s) := by
    by_cases hc : (s.cache.length : Int) ≥ s.maxEntries
    · rw [if_pos hc]; exact sameKeys_cull h
    · rw [if_neg hc]; exact h
  intro j
  show (dictGet (dictSet _ key value) j).isSome
    ↔ (dictGet (dictSet _ key _) j).isSome
  by_cases hjk : j = key
  · subst hjk
    rw [dictGet_dictSet_self, dictGet_dictSet_self]
    simp
  · rw [dictGet_dictSet_ne _ _ _ hjk, dictGet_dictSet_ne _ _ _ hjk]
    exact h1 j

theorem sameKeys_get {V : Type} {s : SimpleCache V} (h : sameKeys s) (now : Int)
    (k : String) : sameKeys (s.get now k none).2 := by
  by_cases hexp : (dictGet s.expireInfo k).getD now < now
  · have h2 : (s.get now k none).2 =
        { s with cache := dictDel s.cache k, expireInfo := dictDel s.expireInfo k } := by
      rw [SimpleCache.get_eq, if_pos hexp]
    rw [h2]
    exact sameKeys_delete h k
  · have h2 : (s.get now k none).2 = s := by
      rw [SimpleCache.get_eq, if_neg hexp]
    rw [h2]
    exact h

theorem sameKeys_applyOp {V : Type} {s : SimpleCache V} (h : sameKeys s)
    (op : CacheOp V) : sameKeys (applyOp s op) := by
  cases op with
  | get now k => exact sameKeys_get h now k
  | set now k v t => exact sameKeys_set h now k v t
  | del k => exact sameKeys_delete h k
  | cull => exact sameKeys_cull h

theorem sameKeys_runOps {V : Type} {s : SimpleCache V} (h : sameKeys s)
    (ops : List (CacheOp V)) : sameKeys (runOps s ops) := by
  induction ops generalizing s with
  | nil => exact h
  | cons op ops ih => exact ih (sameKeys_applyOp h op)

/-- Claim C10: in every state reachable from a freshly constructed
in-memory backend by any sequence of get/set/delete/cull operations, the
value map and the expiration map hold exactly the same keys; consequently
whenever the expiration map has an entry for a key (the situation in
which `get`'s expired branch performs its unguarded paired deletions),
the value map has one too, so neither deletion can hit a missing key. -/
theorem c10_paired_maps_same_keys (V : Type) (host : String)
    (params : List (String × String)) (ops : List (CacheOp V)) :
    sameKeys (runOps (SimpleCache.init V host params) ops)
    ∧ ∀ k, (dictGet (runOps (SimpleCache.init V host params) ops).expireInfo k).isSome →
        (dictGet (runOps (SimpleCache.init V host params) ops).cache k).isSome := by
  have h0 : sameKeys (SimpleCache.init V host params) := by
    intro j
    show (dictGet [] j).isSome ↔ (dictGet ([] : List (String × Int)) j).isSome
    simp [dictGet]
  have h := sameKeys_runOps h0 ops
  exact ⟨h, fun k hk => (h k).mpr hk⟩

/-! ### get_many (C6) -/

theorem getMany_fold_lookup {V : Type} (now : Int) (ks : List String)
    (d0 : List (String × V)) (s : SimpleCache V) (k : String) :
    dictGet (List.foldl
      (fun acc k =>
        match acc.2.get now k none with
        | (some v, t) => (dictSet acc.1 k v, t)
        | (none, t) => (acc.1, t)) (d0, s) ks).1 k
    = if k ∈ ks ∧ (s.get now k none).1.isSome = true then (s.get now k none).1
      else dictGet d0 k := by
  induction ks generalizing d0 s with
  | nil => simp
  | cons a ks ih =>
    rw [List.foldl_cons]
    have hstep : (match (d0, s).2.get now a none with
        | (some v, t) => (dictSet (d0, s).1 a v, t)
        | (none, t) => ((d0, s).1, t))
        = (match (s.get now a none).1 with
           | some v => dictSet d0 a v
           | none => d0, (s.get now a none).2) := by
      rcases hg : s.get now a none with ⟨fst, snd⟩
      cases fst <;> rfl
    rw [hstep, ih]
    have hstab := get_fst_stable s now a k
    rw [hstab]
    by_cases hka : k = a
    · subst hka
      cases hg : (s.get now k none).1 with
      | none => simp
      | some v =>
        by_cases hks : k ∈ ks <;> simp [hks, dictGet_dictSet_self]
    · have hmem : (k ∈ a :: ks) = (k ∈ ks) := by simp [List.mem_cons, hka]
      have hd0 : dictGet
          (match (s.get now a none).1 with
           | some v => dictSet d0 a v
           | none => d0) k = dictGet d0 k := by
        cases (s.get now a none).1 with
        | none => rfl
        | some v => exact dictGet_dictSet_ne _ _ _ hka
      rw [hd0]
      simp [List.mem_cons, hka]

/-- Claim C6: for every state, clock value and requested key list, the
mapping returned by `get_many` contains exactly the requested keys that
are present in the value map and unexpired (expiration timestamp not
strictly below the clock), each mapped to its stored value; absent or
expired requested keys do not appear. -/
theorem c6_get_many_domain {V : Type} (s : SimpleCache V) (now : Int)
    (keys : List String) (k : String) :
    dictGet (s.getMany now keys).1 k =
      if k ∈ keys ∧ ¬ ((dictGet s.expireInfo k).getD now < now)
      then dictGet s.cache k else none := by
  have haux := getMany_fold_lookup now keys [] s k
  have hm : (s.getMany now keys).1 = (List.foldl
      (fun acc k =>
        match acc.2.get now k none with
        | (some v, t) => (dictSet acc.1 k v, t)
        | (none, t) => (acc.1, t)) ([], s) keys).1 := rfl
  rw [hm, haux]
  have hg : (s.get now k none).1 =
      if (dictGet s.expireInfo k).getD now < now then none
      else dictGet s.cache k := by
    rw [SimpleCache.get_fst]
    by_cases hexp : (dictGet s.expireInfo k).getD now < now
    · rw [if_pos hexp, if_pos hexp]
    · rw [if_neg hexp, if_neg hexp]
      cases dictGet s.cache k <;> rfl
  have hnil : dictGet ([] : List (String × V)) k = none := rfl
  by_cases hexp : (dictGet s.expireInfo k).getD now < now
  · have hgn : (s.get now k none).1 = none := by rw [hg, if_pos hexp]
    simp [hgn, hexp, hnil]
  · have hgs : (s.get now k none).1 = dictGet s.cache k := by rw [hg, if_neg hexp]
    rw [hgs]
    by_cases hks : k ∈ keys
    · cases hc : dictGet s.cache k <;> simp [hks, hexp, hnil]
    · simp [hks, hnil]

/-! ### Capacity bound on set (C4) -/

theorem cullPred_zero (f : Int) : cullPred f 0 = true := by
  unfold cullPred
  simp [Int.zero_fmod]

theorem head_key_mem_cullDoomed {V : Type} (s : SimpleCache V) (p : String × V)
    (rest : List (String × V)) (hc : s.cache = p :: rest) :
    p.1 ∈ cullDoomed s := by
  unfold cullDoomed
  rw [hc, List.map_cons, List.enum_cons,
      List.filter_cons_of_pos (by simpa using cullPred_zero s.cullFrequency),
      List.map_cons]
  exact List.mem_cons_self _ _

/-- Counterexample to claim C4 as stated: with `max_entries = 0`
(reachable from the descriptor parameter `max_entries=0`), an empty
backend already has entry count equal to `max_entries`; `set` runs the
cull pass (which removes nothing) and then inserts, leaving 1 > 0
entries, so the bound fails. -/
theorem c4_counterexample_zero_capacity :
    (((SimpleCache.init String "" [("max_entries", "0")]).cache.length : Int)
      = (SimpleCache.init String "" [("max_entries", "0")]).maxEntries)
    ∧ ¬ ((((SimpleCache.init String "" [("max_entries", "0")]).set 0 "k" "v" none).cache.length : Int)
      ≤ (SimpleCache.init String "" [("max_entries", "0")]).maxEntries) := by
  constructor
  · decide
  · decide

/-- Claim C4 (amended): for every state whose configured `max_entries` is
at least 1 and whose entry count equals `max_entries`, `set` first runs
the cull pass and then inserts, and the entry count afterwards is at most
`max_entries`, for every `cull_frequency`.  (As stated the claim also
quantified over `max_entries ≤ 0`, where it fails.) -/
theorem c4_set_capacity_bound {V : Type} (s : SimpleCache V) (now : Int) (key : String)
    (value : V) (timeout : Option Int) (h1 : 1 ≤ s.maxEntries)
    (h2 : (s.cache.length : Int) = s.maxEntries) :
    s.set now key value timeout =
      { s.cull with
        cache := dictSet s.cull.cache key value
        expireInfo := dictSet s.cull.expireInfo key
          (now + timeout.getD s.cull.defaultTimeout) }
    ∧ ((s.set now key value timeout).cache.length : Int) ≤ s.maxEntries := by
  have hge : (s.cache.length : Int) ≥ s.maxEntries := le_of_eq h2.symm
  have hset : s.set now key value timeout =
      { s.cull with
        cache := dictSet s.cull.cache key value
        expireInfo := dictSet s.cull.expireInfo key
          (now + timeout.getD s.cull.defaultTimeout) } := by
    unfold SimpleCache.set
    rw [if_pos hge]
  refine ⟨hset, ?_⟩
  rw [hset]
  have hins : (dictSet s.cull.cache key value).length ≤ s.cull.cache.length + 1 :=
    length_dictSet_le _ _ _
  have hcull : (s.cull.cache.length : Int) + 1 ≤ s.maxEntries := by
    unfold SimpleCache.cull
    by_cases hf : s.cullFrequency = 0
    · rw [if_pos hf]
      show ((List.length [] : Nat) : Int) + 1 ≤ s.maxEntries
      simpa using h1
    · rw [if_neg hf, foldl_delete_eq]
      show ((s.cache.filter
          (fun p => (cullDoomed s).all (fun k => p.1 != k))).length : Int) + 1 ≤ s.maxEntries
      cases hc : s.cache with
      | nil =>
        rw [hc] at h2
        simp at h2
        omega
      | cons p rest =>
        have hmemD : p.1 ∈ cullDoomed s := head_key_mem_cullDoomed s p rest hc
        have hPfalse : ((cullDoomed s).all (fun k => p.1 != k)) = false := by
          apply Bool.eq_false_iff.mpr
          intro hall
          have := List.all_eq_true.mp hall _ hmemD
          simp at this
        rw [List.filter_cons_of_neg (by simp [hPfalse])]
        have hlef : ((rest.filter (fun p => (cullDoomed s).all (fun k => p.1 != k))).length)
            ≤ rest.length := List.length_filter_le _ _
        have hres : s.cache.length = rest.length + 1 := by rw [hc]; rfl
        rw [hres] at h2
        push_cast at h2 ⊢
        omega
  calc ((dictSet s.cull.cache key value).length : Int)
      ≤ (s.cull.cache.length : Int) + 1 := by exact_mod_cast hins
    _ ≤ s.maxEntries := hcull

/-- Witness for C4 at a one-entry backend with `max_entries = 1`. -/
theorem c4_set_capacity_bound_witness :
    1 ≤ (⟨[("a", "1")], [("a", 100)], 300, 1, 3⟩ : SimpleCache String).maxEntries
    ∧ (((⟨[("a", "1")], [("a", 100)], 300, 1, 3⟩ : SimpleCache String).set
        0 "b" "2" none).cache.length : Int)
      ≤ (⟨[("a", "1")], [("a", 100)], 300, 1, 3⟩ : SimpleCache String).maxEntries :=
  ⟨by decide,
   (c4_set_capacity_bound (⟨[("a", "1")], [("a", 100)], 300, 1, 3⟩ : SimpleCache String)
     0 "b" "2" none (by decide) (by decide)).2⟩

/-! ### Exact characterization of the cull pass (C5) -/

theorem all_bne_eq_not_any_beq (ks : List String) (x : String) :
    ks.all (fun k => x != k) = !(ks.any (fun k => x == k)) := by
  induction ks with
  | nil => rfl
  | cons a ks ih =>
    simp only [List.all_cons, List.any_cons, Bool.not_or, bne] at ih ⊢
    rw [ih]

theorem filter_key_eq_filter_pos {α : Type} (q : String → Bool) (r : Nat → Bool) :
    ∀ (d : List (String × α)) (n : Nat),
      (∀ i p, d[i]? = some p → q p.1 = r (n + i)) →
      d.filter (fun p => q p.1) = ((d.enumFrom n).filter (fun p => r p.1)).map Prod.snd := by
  intro d
  induction d with
  | nil => intro n _; rfl
  | cons x d ih =>
    intro n h
    have h0 : q x.1 = r n := by
      have hx := h 0 x (by simp)
      simpa using hx
    have hrec := ih (n + 1) (fun i p hp => by
      have hx := h (i + 1) p (by simpa using hp)
      rw [hx]
      congr 1
      omega)
    rw [List.enumFrom_cons]
    by_cases hr : r n = true
    · rw [List.filter_cons_of_pos (by simpa [h0] using hr),
          List.filter_cons_of_pos (by simpa using hr), List.map_cons, hrec]
    · rw [List.filter_cons_of_neg (by simp [h0, hr]),
          List.filter_cons_of_neg (by simp [hr]), hrec]

theorem mem_enumFrom_filter_map (pred : Nat → Bool) :
    ∀ (ks : List String) (n : Nat) (k : String),
      (k ∈ ((ks.enumFrom n).filter (fun p => pred p.1)).map Prod.snd)
      ↔ ∃ i, ks[i]? = some k ∧ pred (n + i) = true := by
  intro ks
  induction ks with
  | nil => intro n k; simp
  | cons a ks ih =>
    intro n k
    rw [List.enumFrom_cons]
    by_cases hp : pred n = true
    · rw [List.filter_cons_of_pos (by simpa using hp), List.map_cons]
      simp only [List.mem_cons, ih]
      constructor
      · rintro (h | ⟨i, hg, hpi⟩)
        · subst h
          exact ⟨0, by simp, by simpa using hp⟩
        · refine ⟨i + 1, by simpa using hg, ?_⟩
          rw [show n + (i + 1) = n + 1 + i from by omega]
          exact hpi
      · rintro ⟨i, hg, hpi⟩
        cases i with
        | zero =>
          left
          have : some a = some k := by simpa using hg
          exact (Option.some.injEq _ _ ▸ this).symm
        | succ i =>
          right
          refine ⟨i, by simpa using hg, ?_⟩
          rw [show n + 1 + i = n + (i + 1) from by omega]
          exact hpi
    · rw [List.filter_cons_of_neg (by simpa using hp), ih]
      constructor
      · rintro ⟨i, hg, hpi⟩
        refine ⟨i + 1, by simpa using hg, ?_⟩
        rw [show n + (i + 1) = n + 1 + i from by omega]
        exact hpi
      · rintro ⟨i, hg, hpi⟩
        cases i with
        | zero =>
          exfalso
          apply hp
          simpa using hpi
        | succ i =>
          refine ⟨i, by simpa using hg, ?_⟩
          rw [show n + 1 + i = n + (i + 1) from by omega]
          exact hpi

theorem doomed_mem_iff_pos {V : Type} (s : SimpleCache V)
    (hnd : (s.cache.map Prod.fst).Nodup) (i : Nat) (p : String × V)
    (hp : s.cache[i]? = some p) :
    (p.1 ∈ cullDoomed s) ↔ cullPred s.cullFrequency i = true := by
  have hi : (s.cache.map Prod.fst)[i]? = some p.1 := by
    rw [List.getElem?_map, hp]
    rfl
  have hilen : i < (s.cache.map Prod.fst).length := by
    by_contra hcon
    rw [List.getElem?_eq_none (by omega)] at hi
    exact Option.noConfusion hi
  unfold cullDoomed
  rw [show (s.cache.map Prod.fst).enum = (s.cache.map Prod.fst).enumFrom 0 from rfl,
      mem_enumFrom_filter_map]
  constructor
  · rintro ⟨j, hg, hpj⟩
    have hij : i = j := by
      apply List.getElem?_inj hilen hnd
      rw [hi, hg]
    rw [hij]
    simpa using hpj
  · intro h
    exact ⟨i, hi, by simpa using h⟩

/-- Claim C5: the cull pass of the in-memory backend (over a state with
distinct keys, as Python dicts guarantee): with `cull_frequency = 0` it
empties both maps (so a 6th insert at `max_entries = 5` leaves exactly
one entry, third conjunct); with `cull_frequency ≠ 0` it keeps exactly
the entries whose ordinal position in the current storage order is NOT
0 modulo `cull_frequency` (values untouched) and removes the doomed keys
from the expiration map, and nothing else. -/
theorem c5_cull_exact {V : Type} (s : SimpleCache V)
    (hnd : (s.cache.map Prod.fst).Nodup) :
    (s.cullFrequency = 0 → s.cull.cache = [] ∧ s.cull.expireInfo = [])
    ∧ (s.cullFrequency ≠ 0 →
        s.cull.cache =
          ((s.cache.enumFrom 0).filter
            (fun p => !(cullPred s.cullFrequency p.1))).map Prod.snd
        ∧ s.cull.expireInfo =
          s.expireInfo.filter (fun p => !((cullDoomed s).any (fun k => p.1 == k))))
    ∧ (fullFlushExample.set 0 "k6" "v6" none).cache.length = 1 := by
  refine ⟨?_, ?_, by decide⟩
  · intro hf
    unfold SimpleCache.cull
    rw [if_pos hf]
    exact ⟨rfl, rfl⟩
  · intro hf
    unfold SimpleCache.cull
    rw [if_neg hf, foldl_delete_eq]
    constructor
    · show s.cache.filter (fun p => (cullDoomed s).all (fun k => p.1 != k)) = _
      rw [filter_key_eq_filter_pos
        (fun x => (cullDoomed s).all (fun k => x != k))
        (fun i => !(cullPred s.cullFrequency i)) s.cache 0 ?_]
      intro i p hp
      have hiff := doomed_mem_iff_pos s hnd i p hp
      show (cullDoomed s).all (fun k => p.1 != k) = !(cullPred s.cullFrequency (0 + i))
      rw [show (0 + i) = i from by omega]
      by_cases hmem : p.1 ∈ cullDoomed s
      · have hcp : cullPred s.cullFrequency i = true := hiff.mp hmem
        have hall : ((cullDoomed s).all (fun k => p.1 != k)) = false := by
          apply Bool.eq_false_iff.mpr
          intro hallT
          have := List.all_eq_true.mp hallT _ hmem
          simp at this
        rw [hall, hcp]
        rfl
      · have hcp : cullPred s.cullFrequency i = false := by
          cases hv : cullPred s.cullFrequency i
          · rfl
          · exact absurd (hiff.mpr hv) hmem
        have hall : ((cullDoomed s).all (fun k => p.1 != k)) = true := by
          apply List.all_eq_true.mpr
          intro k hk
          have : ¬ p.1 = k := fun he => hmem (he ▸ hk)
          simpa using this
        rw [hall, hcp]
        rfl
    · show s.expireInfo.filter (fun p => (cullDoomed s).all (fun k => p.1 != k)) = _
      apply List.filter_congr
      intro p _
      exact all_bne_eq_not_any_beq _ _

/-- Witness for C5: a three-entry backend with `cull_frequency = 2` culls
exactly the entries at positions 0 and 2, in both maps. -/
theorem c5_cull_exact_witness :
    (⟨[("a", "1"), ("b", "2"), ("c", "3")], [("a", 5), ("b", 6), ("c", 7)],
        300, 300, 2⟩ : SimpleCache String).cull.cache = [("b", "2")]
    ∧ (⟨[("a", "1"), ("b", "2"), ("c", "3")], [("a", 5), ("b", 6), ("c", 7)],
        300, 300, 2⟩ : SimpleCache String).cull.expireInfo = [("b", 6)] := by
  have h := (c5_cull_exact
    (⟨[("a", "1"), ("b", "2"), ("c", "3")], [("a", 5), ("b", 6), ("c", 7)],
      300, 300, 2⟩ : SimpleCache String) (by decide)).2.1 (by decide)
  exact ⟨h.1.trans (by decide), h.2.trans (by decide)⟩

/-! ### Error conditions of get_cache (C7) -/

theorem get_cache_isOk_eq_parse {V : Type} (uri : String) :
    (get_cache V uri).isOk = (parseBackendUri uri).isOk := by
  unfold get_cache
  cases hp : parseBackendUri uri with
  | error e => rfl
  | ok t =>
    obtain ⟨scheme, host, params⟩ := t
    dsimp only
    by_cases hm : (scheme == "memcached") = true
    · rw [if_pos hm]; rfl
    · rw [if_neg hm]; rfl

theorem parse_isOk_eq_not_specRaises (uri : String) :
    (parseBackendUri uri).isOk = !(specRaises uri) := by
  unfold parseBackendUri specRaises
  cases hsplit : splitOnceChar uri.data ':' with
  | none => rfl
  | some pr =>
    obtain ⟨sch, rest⟩ := pr
    dsimp only
    by_cases htake : rest.take 2 = ['/', '/']
    · by_cases hcont : backendKeys.contains (String.mk sch) = true
      · rw [if_neg (not_not_intro htake), if_neg (not_not_intro hcont)]
        have h1 : (rest.take 2 == ['/', '/']) = true := by simp [htake]
        rw [h1, hcont]; rfl
      · rw [if_neg (not_not_intro htake), if_pos hcont]
        have h1 : (rest.take 2 == ['/', '/']) = true := by simp [htake]
        have h2 : backendKeys.contains (String.mk sch) = false := Bool.eq_false_iff.mpr hcont
        rw [h1, h2]; rfl
    · rw [if_pos htake]
      have h1 : (rest.take 2 == ['/', '/']) = false := by simp [htake]
      rw [h1]; rfl

/-- Claim C7: `get_cache` fails exactly on the malformed or
unknown-scheme descriptors: the constructed result is an error iff the
string has no `:`, or what follows the first `:` does not begin with
`//`, or the scheme is not a registered backend name; on every other
input it returns a backend instance.  Concrete cases: "badformat" and
"nozscheme://x" fail, the registered-scheme descriptors succeed. -/
theorem c7_get_cache_error_conditions :
    (∀ uri : String, (get_cache String uri).isOk = !(specRaises uri))
    ∧ (get_cache String "badformat").isOk = false
    ∧ (get_cache String "nozscheme://x").isOk = false
    ∧ (get_cache String "simple:///?max_entries=5").isOk = true
    ∧ (get_cache String "memcached://127.0.0.1:11211/?timeout=60").isOk = true := by
  refine ⟨?_, rfl, rfl, rfl, rfl⟩
  intro uri
  rw [get_cache_isOk_eq_parse, parse_isOk_eq_not_specRaises]
